import Mathlib

set_option maxRecDepth 10000

/-!
Verification of the process-lifecycle / cooperative-cancellation core of the
stress-ng excerpt: the kill-and-reap escalation protocol (core-killpid.h),
the pthread worker-group startup and quorum wait (stress-exit-group.c), and
the qsort workload iteration loop with its SIGALRM non-local-jump machinery
(stress-qsort.c).  Machine integers that matter are modelled as Nat; fallible
steps return explicit outcome values; loops with an OS-imposed bound are
modelled with explicit fuel equal to the bound in the source.
-/

/- ===================== KillEscalator (core-killpid.h) ===================== -/

/-- Lifecycle states of a worker handle, spec section 3. -/
inductive HandleState
  | Created
  | Running
  | SignalSent
  | Escalated
  | Reaped
  | StartFailed
deriving DecidableEq

/-- Outcome of a kill-and-wait call: clean stop within the grace period, or
escalation to the unblockable force-kill signal. -/
inductive KWOutcome
  | Reaped
  | ForceKilled
deriving DecidableEq

/-- Modelled from the spec: the behaviour of the entity addressed by a kill.
The implementation of stress_kill_and_wait is not under src (only its
declaration, core-killpid.h lines 23-24), so the target is abstracted by the
poll tick at which it terminates after the initial signal; none means the
entity ignores the signal and only dies to the force-kill. -/
structure Target where
  diesAfter : Option Nat
deriving DecidableEq

/-- Whether the target has terminated by poll tick t after signal delivery. -/
def targetGone (t : Target) (tick : Nat) : Bool :=
  match t.diesAfter with
  | some d => decide (d ≤ tick)
  | none => false

/-- Poll for termination: checks ticks tick, tick+1, ... for fuel steps,
returning the first tick at which the target is observed gone. -/
def kw_poll_loop (t : Target) : Nat → Nat → Option Nat
  | _, 0 => none
  | tick, fuel + 1 =>
    if targetGone t tick then some tick else kw_poll_loop t (tick + 1) fuel

/-- Modelled from the spec: stress_kill_and_wait (declared core-killpid.h
lines 23-24, body not under src), per spec section 4.1: deliver the signal,
poll for termination up to the grace period, and if the entity is still
alive when the grace period elapses deliver an unconditional force-kill
(unblockable, so the subsequent wait terminates) and reap.  Returns the
outcome, the final handle state, and the trace of handle states traversed
after Running. -/
def stress_kill_and_wait (t : Target) (grace : Nat) :
    KWOutcome × HandleState × List HandleState :=
  match kw_poll_loop t 0 (grace + 1) with
  | some _ =>
    (KWOutcome.Reaped, HandleState.Reaped,
     [HandleState.SignalSent, HandleState.Reaped])
  | none =>
    (KWOutcome.ForceKilled, HandleState.Reaped,
     [HandleState.SignalSent, HandleState.Escalated, HandleState.Reaped])

theorem kw_poll_loop_isSome (t : Target) :
    ∀ fuel tick, (kw_poll_loop t tick fuel).isSome = true ↔
      ∃ k, k < fuel ∧ targetGone t (tick + k) = true := by
  intro fuel
  induction fuel with
  | zero => simp [kw_poll_loop]
  | succ n ih =>
    intro tick
    by_cases h : targetGone t tick = true
    · simp only [kw_poll_loop, h, if_pos]
      constructor
      · intro _
        exact ⟨0, Nat.succ_pos n, by simpa using h⟩
      · intro _
        simp
    · simp only [kw_poll_loop, h, if_neg, Bool.false_eq_true, if_false]
      rw [ih (tick + 1)]
      constructor
      · rintro ⟨k, hk, hg⟩
        exact ⟨k + 1, Nat.succ_lt_succ hk, by
          have : tick + 1 + k = tick + (k + 1) := by omega
          rw [this] at hg
          exact hg⟩
      · rintro ⟨k, hk, hg⟩
        cases k with
        | zero => simp at hg; exact absurd hg h
        | succ m =>
          refine ⟨m, Nat.lt_of_succ_lt_succ hk, ?_⟩
          have : tick + (m + 1) = tick + 1 + m := by omega
          rw [this] at hg
          exact hg

theorem targetGone_exists (t : Target) (grace : Nat) :
    (∃ k, k < grace + 1 ∧ targetGone t (0 + k) = true) ↔
      (∃ d, t.diesAfter = some d ∧ d ≤ grace) := by
  cases hd : t.diesAfter with
  | none => simp [targetGone, hd]
  | some d =>
    simp only [targetGone, hd, Option.some.injEq]
    constructor
    · rintro ⟨k, hk, hg⟩
      refine ⟨d, rfl, ?_⟩
      have := of_decide_eq_true hg
      omega
    · rintro ⟨e, he, hle⟩
      subst he
      exact ⟨d, by omega, by simp⟩

/-- Claim C1: for every handle behaviour and every grace period,
stress_kill_and_wait returns outcome Reaped exactly when the entity stops
within the grace period and ForceKilled otherwise, the handle state after
the call is Reaped (never SignalSent or Escalated), and the exit status is
reaped before returning (the state trace ends in Reaped). -/
theorem kill_and_wait_outcome_reaped_iff (t : Target) (grace : Nat) :
    ((stress_kill_and_wait t grace).1 = KWOutcome.Reaped ↔
       ∃ d, t.diesAfter = some d ∧ d ≤ grace)
    ∧ (stress_kill_and_wait t grace).2.1 = HandleState.Reaped
    ∧ (stress_kill_and_wait t grace).2.1 ≠ HandleState.SignalSent
    ∧ (stress_kill_and_wait t grace).2.1 ≠ HandleState.Escalated
    ∧ (stress_kill_and_wait t grace).2.2.getLast? = some HandleState.Reaped := by
  have hiff := (kw_poll_loop_isSome t (grace + 1) 0).trans (targetGone_exists t grace)
  cases hp : kw_poll_loop t 0 (grace + 1) with
  | some v =>
    have hs : (kw_poll_loop t 0 (grace + 1)).isSome = true := by simp [hp]
    refine ⟨?_, ?_, ?_, ?_, ?_⟩ <;>
      simp [stress_kill_and_wait, hp, ← hiff, hs, List.getLast?]
  | none =>
    have hs : ¬ (kw_poll_loop t 0 (grace + 1)).isSome = true := by simp [hp]
    refine ⟨?_, ?_, ?_, ?_, ?_⟩ <;>
      simp [stress_kill_and_wait, hp, ← hiff, hs, List.getLast?]

/-- Event in the observable trace of a batch kill: delivery of the initial
signal to handle idx (ok records whether the low-level delivery succeeded),
or the wait/reap step for handle idx. -/
inductive BatchEvent
  | signal (idx : Nat) (ok : Bool)
  | waitReap (idx : Nat)
deriving DecidableEq

def BatchEvent.isSignal : BatchEvent → Bool
  | .signal _ _ => true
  | .waitReap _ => false

/-- One handle of a batch: whether its initial signal delivery succeeds, and
the behaviour of the addressed entity. -/
structure BatchItem where
  sigOk : Bool
  tgt : Target
deriving DecidableEq

/-- An entity whose signal delivery failed never dies of that signal; it is
collected by the force-kill during its own wait/reap step. -/
def effTarget (it : BatchItem) : Target :=
  if it.sigOk then it.tgt else ⟨none⟩

/-- Signal-delivery events of the batch, one per handle, in handle order. -/
def batchSignals : List BatchItem → Nat → List BatchEvent
  | [], _ => []
  | it :: rest, i => BatchEvent.signal i it.sigOk :: batchSignals rest (i + 1)

/-- Wait/reap events of the batch, one per handle, in handle order. -/
def batchWaits : List BatchItem → Nat → List BatchEvent
  | [], _ => []
  | _ :: rest, i => BatchEvent.waitReap i :: batchWaits rest (i + 1)

/-- Modelled from the spec: stress_kill_and_wait_many (declared
core-killpid.h lines 25-27, body not under src), per spec section 4.1:
signal all handles first, then wait for and reap all handles; a failed
signal delivery for one handle is reported but does not abort processing of
the remaining handles, and each outcome is computed from that handle alone.
Returns the event trace and the per-handle outcomes. -/
def stress_kill_and_wait_many (items : List BatchItem) (grace : Nat) :
    List BatchEvent × List KWOutcome :=
  (batchSignals items 0 ++ batchWaits items 0,
   items.map fun it => (stress_kill_and_wait (effTarget it) grace).1)

theorem batchSignals_mem (items : List BatchItem) :
    ∀ i e, e ∈ batchSignals items i → e.isSignal = true := by
  induction items with
  | nil => intro i e h; simp [batchSignals] at h
  | cons it rest ih =>
    intro i e h
    simp only [batchSignals, List.mem_cons] at h
    rcases h with h | h
    · subst h; rfl
    · exact ih (i + 1) e h

theorem batchWaits_mem (items : List BatchItem) :
    ∀ i e, e ∈ batchWaits items i → e.isSignal = false := by
  induction items with
  | nil => intro i e h; simp [batchWaits] at h
  | cons it rest ih =>
    intro i e h
    simp only [batchWaits, List.mem_cons] at h
    rcases h with h | h
    · subst h; rfl
    · exact ih (i + 1) e h

theorem batchSignals_length (items : List BatchItem) :
    ∀ i, (batchSignals items i).length = items.length := by
  induction items with
  | nil => intro i; rfl
  | cons it rest ih => intro i; simp [batchSignals, ih]

theorem batchWaits_length (items : List BatchItem) :
    ∀ i, (batchWaits items i).length = items.length := by
  induction items with
  | nil => intro i; rfl
  | cons it rest ih => intro i; simp [batchWaits, ih]

/-- In an append whose left part satisfies a Boolean property everywhere and
whose right part refutes it everywhere, every satisfying position precedes
every refuting position. -/
theorem append_all_ordered {α : Type} (f : α → Bool) (l₁ l₂ : List α)
    (h1 : ∀ e ∈ l₁, f e = true) (h2 : ∀ e ∈ l₂, f e = false)
    (p q : Nat) (hp : p < (l₁ ++ l₂).length) (hq : q < (l₁ ++ l₂).length)
    (hfp : f ((l₁ ++ l₂).get ⟨p, hp⟩) = true)
    (hfq : f ((l₁ ++ l₂).get ⟨q, hq⟩) = false) : p < q := by
  have hplen : p < l₁.length := by
    by_contra hge
    push_neg at hge
    have hq2 : p - l₁.length < l₂.length := by
      have := hp
      simp only [List.length_append] at this
      omega
    have : (l₁ ++ l₂).get ⟨p, hp⟩ = l₂.get ⟨p - l₁.length, hq2⟩ := by
      simp [List.get_eq_getElem, List.getElem_append_right, hge]
    rw [this] at hfp
    have := h2 (l₂.get ⟨p - l₁.length, hq2⟩) (List.get_mem l₂ _ hq2)
    rw [this] at hfp
    exact Bool.false_ne_true hfp
  have hqlen : l₁.length ≤ q := by
    by_contra hlt
    push_neg at hlt
    have : (l₁ ++ l₂).get ⟨q, hq⟩ = l₁.get ⟨q, hlt⟩ := by
      simp [List.get_eq_getElem, List.getElem_append_left, hlt]
    rw [this] at hfq
    have := h1 (l₁.get ⟨q, hlt⟩) (List.get_mem l₁ _ hlt)
    rw [this] at hfq
    simp at hfq
  omega

/-- Claim C2: within stress_kill_and_wait_many, every signal delivery of the
batch occurs in the trace strictly before every wait/reap of the batch; a
failed signal delivery does not abort processing (an outcome is produced for
every handle); and each handle's outcome is computed from that handle alone. -/
theorem kill_and_wait_many_batched_and_independent
    (items : List BatchItem) (grace : Nat) :
    (∀ p q (hp : p < (stress_kill_and_wait_many items grace).1.length)
        (hq : q < (stress_kill_and_wait_many items grace).1.length),
        ((stress_kill_and_wait_many items grace).1.get ⟨p, hp⟩).isSignal = true →
        ((stress_kill_and_wait_many items grace).1.get ⟨q, hq⟩).isSignal = false →
        p < q)
    ∧ (stress_kill_and_wait_many items grace).2.length = items.length
    ∧ ∀ k (hk : k < items.length)
        (hk2 : k < (stress_kill_and_wait_many items grace).2.length),
        (stress_kill_and_wait_many items grace).2.get ⟨k, hk2⟩ =
          (stress_kill_and_wait (effTarget (items.get ⟨k, hk⟩)) grace).1 := by
  refine ⟨?_, ?_, ?_⟩
  · intro p q hp hq hfp hfq
    exact append_all_ordered BatchEvent.isSignal _ _
      (batchSignals_mem items 0) (batchWaits_mem items 0) p q hp hq hfp hfq
  · simp [stress_kill_and_wait_many]
  · intro k hk hk2
    simp [stress_kill_and_wait_many, List.get_eq_getElem]

/-- Witness for claim C2 at a concrete two-handle batch whose first handle
fails to signal: the second handle is still processed and reaped cleanly. -/
theorem kill_and_wait_many_batched_witness :
    (stress_kill_and_wait_many
        [⟨false, ⟨some 0⟩⟩, ⟨true, ⟨some 0⟩⟩] 1).2.get ⟨1, by decide⟩ =
      KWOutcome.Reaped := by
  have h := (kill_and_wait_many_batched_and_independent
      [⟨false, ⟨some 0⟩⟩, ⟨true, ⟨some 0⟩⟩] 1).2.2 1 (by decide) (by decide)
  rw [h]
  decide

/- ================ WorkerGroup (stress-exit-group.c) ================ -/

/-- STRESS_PTHREAD_EXIT_GROUP_MAX, stress-exit-group.c line 36. -/
def STRESS_PTHREAD_EXIT_GROUP_MAX : Nat := 16

/-- The EAGAIN errno value pthread_create returns on resource exhaustion. -/
def EAGAIN : Nat := 11

/-- Result of the pthread creation loop of stress_exit_group_child
(stress-exit-group.c lines 136-151). exitIdx is the value of the loop
variable i when the loop exits, created the number of pthreads successfully
created, attempted the number of pthread_create calls made, fatal whether
the stop_running plus shim_exit_group abort path was taken, reported whether
pr_fail was emitted. -/
structure CreateRes where
  exitIdx : Nat
  created : Nat
  attempted : Nat
  fatal : Bool
  reported : Bool
deriving DecidableEq

/-- Creation loop of stress_exit_group_child, lines 136-151: for each index,
call pthread_create (result given by rets); on EAGAIN stop trying silently;
on any other nonzero result emit pr_fail and abort; after a successful
create, stop if the combined keep_running and keep_stressing check
(keepOn) fails. -/
def exit_group_create_loop_aux (rets : Nat → Nat) (keepOn : Nat → Bool) :
    Nat → Nat → CreateRes
  | i, 0 => ⟨i, i, i, false, false⟩
  | i, fuel + 1 =>
    let r := rets i
    if r ≠ 0 then
      if r = EAGAIN then ⟨i, i, i + 1, false, false⟩
      else ⟨i, i, i + 1, true, true⟩
    else if keepOn i then exit_group_create_loop_aux rets keepOn (i + 1) fuel
    else ⟨i, i + 1, i + 1, false, false⟩

def exit_group_create_loop (rets : Nat → Nat) (keepOn : Nat → Bool) : CreateRes :=
  exit_group_create_loop_aux rets keepOn 0 STRESS_PTHREAD_EXIT_GROUP_MAX

/-- Outcome of the quorum wait loop of stress_exit_group_child, lines
161-175: all pthreads observed started, cancellation exit taken, or the
1000-poll budget exhausted. -/
inductive WaitOutcome
  | allRunning
  | cancelled
  | exhausted
deriving DecidableEq

/-- Quorum wait loop of stress_exit_group_child, lines 161-175: up to 1000
polls; at poll j first check keep_stressing (keepS j); then compare the
observed pthread_count (counts j) with the creation-loop exit index i and
stop when equal; otherwise sleep and retry.  Returns the outcome and the
number of sleeps performed. -/
def exit_group_wait_loop_aux (keepS : Nat → Bool) (counts : Nat → Nat)
    (i : Nat) : Nat → Nat → WaitOutcome × Nat
  | _, 0 => (WaitOutcome.exhausted, 0)
  | j, fuel + 1 =>
    if ¬ keepS j then (WaitOutcome.cancelled, 0)
    else if counts j = i then (WaitOutcome.allRunning, 0)
    else
      let r := exit_group_wait_loop_aux keepS counts i (j + 1) fuel
      (r.1, r.2 + 1)

def exit_group_wait_loop (keepS : Nat → Bool) (counts : Nat → Nat)
    (i : Nat) : WaitOutcome × Nat :=
  exit_group_wait_loop_aux keepS counts i 0 1000

theorem exit_group_wait_loop_aux_allRunning (counts : Nat → Nat) (i : Nat) :
    ∀ fuel j,
      (exit_group_wait_loop_aux (fun _ => true) counts i j fuel).1 =
          WaitOutcome.allRunning ↔
        ∃ k, k < fuel ∧ counts (j + k) = i := by
  intro fuel
  induction fuel with
  | zero => simp [exit_group_wait_loop_aux]
  | succ n ih =>
    intro j
    by_cases h : counts j = i
    · simp only [exit_group_wait_loop_aux, h]
      simp only [not_true_eq_false, if_false, if_true, ite_true]
      constructor
      · intro _
        exact ⟨0, Nat.succ_pos n, by simpa using h⟩
      · intro _
        simp
    · simp only [exit_group_wait_loop_aux, h]
      simp only [not_true_eq_false, if_false, ite_false]
      rw [ih (j + 1)]
      constructor
      · rintro ⟨k, hk, hg⟩
        refine ⟨k + 1, Nat.succ_lt_succ hk, ?_⟩
        have he : j + 1 + k = j + (k + 1) := by omega
        rw [he] at hg
        exact hg
      · rintro ⟨k, hk, hg⟩
        cases k with
        | zero => simp at hg; exact absurd hg h
        | succ m =>
          refine ⟨m, Nat.lt_of_succ_lt_succ hk, ?_⟩
          have he : j + (m + 1) = j + 1 + m := by omega
          rw [he] at hg
          exact hg

theorem exit_group_wait_loop_aux_sleeps (keepS : Nat → Bool)
    (counts : Nat → Nat) (i : Nat) :
    ∀ fuel j, (exit_group_wait_loop_aux keepS counts i j fuel).2 ≤ fuel := by
  intro fuel
  induction fuel with
  | zero => intro j; simp [exit_group_wait_loop_aux]
  | succ n ih =>
    intro j
    simp only [exit_group_wait_loop_aux]
    split
    · simp
    · split
      · simp
      · have := ih (j + 1)
        simp only []
        omega

theorem exit_group_create_loop_aux_created (rets : Nat → Nat)
    (keepOn : Nat → Bool) :
    ∀ fuel i,
      (exit_group_create_loop_aux rets keepOn i fuel).created =
          (exit_group_create_loop_aux rets keepOn i fuel).exitIdx ∨
        (exit_group_create_loop_aux rets keepOn i fuel).created =
          (exit_group_create_loop_aux rets keepOn i fuel).exitIdx + 1 := by
  intro fuel
  induction fuel with
  | zero => intro i; left; rfl
  | succ n ih =>
    intro i
    simp only [exit_group_create_loop_aux]
    split
    · split
      · left; rfl
      · left; rfl
    · split
      · exact ih (i + 1)
      · right; rfl

/-- Claim C3 (counterexample): the quorum wait compares the observed
pthread_count with the creation loop exit index i, not with the number of
successfully created workers.  When creation stops early because the
keep_running check failed right after a successful pthread_create (lines
149-150), one more worker was created than i, and the wait declares all
running while that worker has not yet registered: the claimed equivalence
is false for this concrete run. -/
theorem quorum_wait_allstarted_iff_cex :
    ¬ ((exit_group_wait_loop (fun _ => true) (fun _ => 0)
          (exit_group_create_loop (fun _ => 0)
            (fun j => decide (0 < j))).exitIdx).1 = WaitOutcome.allRunning ↔
        ∃ j, j < 1000 ∧ (fun _ => (0 : Nat)) j =
          (exit_group_create_loop (fun _ => 0)
            (fun j => decide (0 < j))).created) := by
  intro h
  have hidx : (exit_group_create_loop (fun _ => 0)
      (fun j => decide (0 < j))).exitIdx = 0 := by decide
  have hcr : (exit_group_create_loop (fun _ => 0)
      (fun j => decide (0 < j))).created = 1 := by decide
  rw [hidx, hcr] at h
  have hall : (exit_group_wait_loop (fun _ => true) (fun _ => (0 : Nat)) 0).1 =
      WaitOutcome.allRunning := by
    have := (exit_group_wait_loop_aux_allRunning (fun _ => (0 : Nat)) 0 1000 0).mpr
      ⟨0, by omega, rfl⟩
    simpa [exit_group_wait_loop] using this
  obtain ⟨j, _, hj⟩ := h.mp hall
  simp at hj

/-- Claim C3 (amended): absent cancellation during the wait, the quorum wait
of stress_exit_group_child declares all running exactly when some poll among
its budget of 1000 observes a started-count equal to the creation-loop exit
index i (which equals the number of successfully created workers except when
creation stopped early at the cancellation check after a successful create,
where one more worker was created); and it performs at most 1000 sleeps
before giving up. -/
theorem quorum_wait_amended (counts : Nat → Nat) (i : Nat)
    (rets : Nat → Nat) (keepOn : Nat → Bool) :
    ((exit_group_wait_loop (fun _ => true) counts i).1 =
        WaitOutcome.allRunning ↔ ∃ j, j < 1000 ∧ counts j = i)
    ∧ (exit_group_wait_loop (fun _ => true) counts i).2 ≤ 1000
    ∧ ((exit_group_create_loop rets keepOn).created =
          (exit_group_create_loop rets keepOn).exitIdx ∨
        (exit_group_create_loop rets keepOn).created =
          (exit_group_create_loop rets keepOn).exitIdx + 1) := by
  refine ⟨?_, ?_, ?_⟩
  · have h := exit_group_wait_loop_aux_allRunning counts i 1000 0
    simpa [exit_group_wait_loop] using h
  · exact exit_group_wait_loop_aux_sleeps _ counts i 1000 0
  · exact exit_group_create_loop_aux_created rets keepOn _ 0

theorem exit_group_create_loop_skip (rets : Nat → Nat) (keepOn : Nat → Bool) :
    ∀ k i fuel, (∀ m, m < k → rets (i + m) = 0 ∧ keepOn (i + m) = true) →
      exit_group_create_loop_aux rets keepOn i (k + fuel) =
        exit_group_create_loop_aux rets keepOn (i + k) fuel := by
  intro k
  induction k with
  | zero => intro i fuel _; simp
  | succ n ih =>
    intro i fuel hpre
    have h0 : rets i = 0 := by simpa using (hpre 0 (by omega)).1
    have h1 : keepOn i = true := by simpa using (hpre 0 (by omega)).2
    have hstep : n + 1 + fuel = (n + fuel) + 1 := by omega
    rw [hstep]
    have : exit_group_create_loop_aux rets keepOn i ((n + fuel) + 1) =
        exit_group_create_loop_aux rets keepOn (i + 1) (n + fuel) := by
      simp [exit_group_create_loop_aux, h0, h1]
    rw [this, ih (i + 1) fuel ?_]
    · have : i + 1 + n = i + (n + 1) := by omega
      rw [this]
    · intro m hm
      have := hpre (m + 1) (by omega)
      have he : i + (m + 1) = i + 1 + m := by omega
      rw [he] at this
      exact this

/-- Claim C4: during group creation, the first pthread_create failure with
EAGAIN stops further creation attempts and the group proceeds with the k
workers already created, with no failure reported and no abort; any other
nonzero pthread_create result reports a failure and aborts the group. -/
theorem create_loop_eagain_degrades_other_fatal (rets : Nat → Nat)
    (keepOn : Nat → Bool) (k : Nat) (hk : k < STRESS_PTHREAD_EXIT_GROUP_MAX)
    (hpre : ∀ m, m < k → rets m = 0 ∧ keepOn m = true) :
    (rets k = EAGAIN →
      exit_group_create_loop rets keepOn = ⟨k, k, k + 1, false, false⟩)
    ∧ (rets k ≠ 0 → rets k ≠ EAGAIN →
      exit_group_create_loop rets keepOn = ⟨k, k, k + 1, true, true⟩) := by
  have hsplit : STRESS_PTHREAD_EXIT_GROUP_MAX =
      k + ((STRESS_PTHREAD_EXIT_GROUP_MAX - k - 1) + 1) := by
    unfold STRESS_PTHREAD_EXIT_GROUP_MAX at hk ⊢
    omega
  have hskip := exit_group_create_loop_skip rets keepOn k 0
    ((STRESS_PTHREAD_EXIT_GROUP_MAX - k - 1) + 1)
    (by intro m hm; simpa using hpre m hm)
  constructor
  · intro hEA
    have hne : rets k ≠ 0 := by
      rw [hEA]; unfold EAGAIN; omega
    unfold exit_group_create_loop
    rw [hsplit, hskip]
    simp [exit_group_create_loop_aux, hne, hEA, EAGAIN]
  · intro hne hnEA
    unfold exit_group_create_loop
    rw [hsplit, hskip]
    simp [exit_group_create_loop_aux, hne, hnEA]

/-- Witness for claim C4: with pthread_create succeeding twice and then
returning EAGAIN, the group proceeds with 2 workers, attempts no fourth
create, and reports nothing. -/
theorem create_loop_eagain_degrades_witness :
    exit_group_create_loop (fun m => if m = 2 then EAGAIN else 0)
      (fun _ => true) = ⟨2, 2, 3, false, false⟩ :=
  (create_loop_eagain_degrades_other_fatal
    (fun m => if m = 2 then EAGAIN else 0) (fun _ => true) 2
    (by decide) (by decide)).1 (by decide)

/-- Mutex-discipline events emitted by a worker while registering itself. -/
inductive MuEvent
  | lockOk
  | lockFail
  | incr
  | unlock
deriving DecidableEq

/-- Registration step of stress_exit_group_func (stress-exit-group.c lines
87-92): pthread_mutex_lock; only when it returns 0 is pthread_count
incremented and the mutex unlocked.  lockRet is the pthread_mutex_lock
return value. -/
def stress_exit_group_func (lockRet : Nat) : List MuEvent :=
  if lockRet = 0 then [MuEvent.lockOk, MuEvent.incr, MuEvent.unlock]
  else [MuEvent.lockFail]

/-- Count of increment events in a trace, total and performed while the
mutex is held (held is the lock state before the first event). -/
def incrCounts : List MuEvent → Bool → Nat × Nat
  | [], _ => (0, 0)
  | e :: es, held =>
    match e with
    | MuEvent.lockOk => incrCounts es true
    | MuEvent.lockFail => incrCounts es held
    | MuEvent.unlock => incrCounts es false
    | MuEvent.incr =>
      let r := incrCounts es held
      (r.1 + 1, if held then r.2 + 1 else r.2)

/-- Claim C5 (counterexample): it is not the case that every worker that
begins executing increments the started-count exactly once: a worker whose
pthread_mutex_lock call fails (here with return value 22) performs no
increment at all. -/
theorem worker_increments_once_cex :
    ¬ ∀ lockRet : Nat,
        (incrCounts (stress_exit_group_func lockRet) false).1 = 1 :=
  fun h => absurd (h 22) (by decide)

/-- Claim C5 (amended): a worker that begins executing and whose mutex lock
succeeds increments the shared started-count exactly once, a worker whose
lock fails performs no increment, and every increment a worker performs
happens while it holds the group mutex, so the count observed by the quorum
wait is a consistent snapshot. -/
theorem worker_increment_under_mutex (lockRet : Nat) :
    (incrCounts (stress_exit_group_func lockRet) false).1 =
        (incrCounts (stress_exit_group_func lockRet) false).2
    ∧ (lockRet = 0 →
        (incrCounts (stress_exit_group_func lockRet) false).1 = 1)
    ∧ (lockRet ≠ 0 →
        (incrCounts (stress_exit_group_func lockRet) false).1 = 0) := by
  by_cases h : lockRet = 0
  · refine ⟨?_, fun _ => ?_, fun hc => absurd h hc⟩ <;>
      simp [stress_exit_group_func, h, incrCounts]
  · refine ⟨?_, fun hc => absurd hc h, fun _ => ?_⟩ <;>
      simp [stress_exit_group_func, h, incrCounts]

/-- Witness for claim C5 (amended) at a successful lock: exactly one
increment, performed under the mutex. -/
theorem worker_increment_under_mutex_witness :
    (incrCounts (stress_exit_group_func 0) false).1 =
        (incrCounts (stress_exit_group_func 0) false).2
    ∧ (incrCounts (stress_exit_group_func 0) false).1 = 1 :=
  ⟨(worker_increment_under_mutex 0).1,
   (worker_increment_under_mutex 0).2.1 rfl⟩

/-- Events acting on the cancellation flag keep_running_flag of
stress-exit-group.c: a call to keep_running() observing whether SIGALRM is
pending (line 60-65), or a direct stop_running() call (line 49-52). -/
inductive CancelEvent
  | poll (sigalrmPending : Bool)
  | stop
deriving DecidableEq

/-- Effect of one event on keep_running_flag: stop_running clears it;
keep_running clears it when SIGALRM is pending, otherwise leaves it. -/
def cancelStep (flag : Bool) : CancelEvent → Bool
  | CancelEvent.stop => false
  | CancelEvent.poll p => if p then false else flag

/-- Flag value after a sequence of events. -/
def cancelRun (flag : Bool) (evs : List CancelEvent) : Bool :=
  evs.foldl cancelStep flag

/-- Values returned by keep_running() at each poll of the sequence (the
return value is the flag after the pending check, line 64). -/
def pollValues : Bool → List CancelEvent → List Bool
  | _, [] => []
  | flag, e :: es =>
    match e with
    | CancelEvent.poll _ => cancelStep flag e :: pollValues (cancelStep flag e) es
    | CancelEvent.stop => pollValues (cancelStep flag e) es

/-- Loop condition of the worker wait loop of stress_exit_group_func (lines
94-97): keep waiting only while the flag is up and fewer than
STRESS_PTHREAD_EXIT_GROUP_MAX pthreads have registered. -/
def workerKeepWaiting (flag : Bool) (count : Nat) : Bool :=
  flag && decide (count < STRESS_PTHREAD_EXIT_GROUP_MAX)

theorem cancelRun_false (evs : List CancelEvent) :
    cancelRun false evs = false := by
  induction evs with
  | nil => rfl
  | cons e es ih =>
    cases e with
    | poll p => cases p <;> simpa [cancelRun, cancelStep] using ih
    | stop => simpa [cancelRun, cancelStep] using ih

/-- Claim C6: clearing keep_running_flag is idempotent (any run of one or
more stop_running calls leaves the same observable state as a single one)
and level-triggered: once the flag is down, every later keep_running poll
observes it down, no later event can raise it, and a worker checking its
loop condition stops for every possible started-count. -/
theorem cancel_idempotent_level_triggered :
    (∀ (flag : Bool) (n : Nat),
      cancelRun flag (List.replicate (n + 1) CancelEvent.stop) =
        cancelRun flag [CancelEvent.stop])
    ∧ (∀ evs : List CancelEvent, cancelRun false evs = false)
    ∧ (∀ evs : List CancelEvent,
        (pollValues false evs).all (fun b => !b) = true)
    ∧ (∀ count : Nat, workerKeepWaiting false count = false) := by
  refine ⟨?_, cancelRun_false, ?_, ?_⟩
  · intro flag n
    have : cancelRun flag (List.replicate (n + 1) CancelEvent.stop) = false := by
      induction n with
      | zero => rfl
      | succ m ih =>
        have : List.replicate (m + 1 + 1) CancelEvent.stop =
            CancelEvent.stop :: List.replicate (m + 1) CancelEvent.stop := rfl
        rw [this]
        simpa [cancelRun, cancelStep] using cancelRun_false _
    rw [this]
    rfl
  · intro evs
    induction evs with
    | nil => rfl
    | cons e es ih =>
      cases e with
      | poll p => cases p <;> simpa [pollValues, cancelStep] using ih
      | stop => simpa [pollValues, cancelStep] using ih
  · intro count
    rfl

/- ================ IterationLoop (stress-qsort.c) ================ -/

/-- Which verification check failed: the ascending-order check after the
forward sort (pr_fail at stress-qsort.c line 117) or the descending-order
check after a reverse sort (lines 132 and 149). -/
inductive VTag
  | sortErr
  | revSortErr
deriving DecidableEq

/-- Environment of one stress_qsort run.  flags gives the successive reads
of keep_stressing_flag and of the loop condition; sortOut gives the buffer
contents left by each qsort(3) call (the libc sort is an external workload
payload, modelled as an environment-supplied transformation, indexed by the
global qsort-call counter); alarmUnit is the unit of work during which
SIGALRM is delivered, if any; verifyOn models OPT_FLAGS_VERIFY; maxOps the
bogo-ops limit with 0 meaning unlimited. -/
structure QCfg where
  flags : Nat → Bool
  sortOut : Nat → List Int
  alarmUnit : Option Nat
  verifyOn : Bool
  maxOps : Nat

/-- State of the qsort worker: global unit-of-work index, flag-poll index,
qsort-call index, bogo-op counter, recorded verification failures (call
index and failing check), and the do_jmp guard (stress-qsort.c line 27). -/
structure QSt where
  unit : Nat
  chk : Nat
  dataIdx : Nat
  counter : Nat
  failures : List (Nat × VTag)
  doJmp : Bool
deriving DecidableEq

def qInit : QSt := ⟨0, 0, 0, 0, [], true⟩

/-- Whether SIGALRM arrives during the current unit of work while the
do_jmp guard is still set, which makes stress_qsort_handler (lines 41-49)
take the siglongjmp. -/
def alarmFires (cfg : QCfg) (s : QSt) : Bool :=
  decide (cfg.alarmUnit = some s.unit) && s.doJmp

/-- Scan for an ascending-order violation exactly as the verify pass at
lines 115-122: some adjacent pair with the left element greater. -/
def ascOrderErr : List Int → Bool
  | a :: b :: rest => decide (a > b) || ascOrderErr (b :: rest)
  | _ => false

/-- Scan for a descending-order violation exactly as the verify passes at
lines 130-137 and 146-154: some adjacent pair with the left element
smaller. -/
def descOrderErr : List Int → Bool
  | a :: b :: rest => decide (a < b) || descOrderErr (b :: rest)
  | _ => false

/-- The kinds of unit of work inside the do-while body of stress_qsort:
a qsort(3) call, a verify pass (recording a failure with the given tag when
it finds an ordering violation in the direction given by asc), and a
checkpoint reading keep_stressing_flag. -/
inductive QStep
  | sort
  | verify (tag : VTag) (asc : Bool)
  | chk
deriving DecidableEq

/-- Result of one step: continue with the next step, SIGALRM handler bounced
control out via siglongjmp (do_jmp guard now cleared), or a checkpoint saw
keep_stressing_flag down and broke out of the body. -/
inductive StepRes
  | cont (s : QSt)
  | jumped (s : QSt)
  | broke (s : QSt)
deriving DecidableEq

/-- Execute one step from state s.  A qsort call is a unit of work during
which the alarm may fire; it advances the qsort-call index.  A verify pass
runs only under OPT_FLAGS_VERIFY, is then itself a unit of work, scans the
buffer left by the previous qsort call and records at most one failure
identifying the failing check (the pr_fail calls at stress-qsort.c lines
117, 132, 149).  A checkpoint consumes one read of keep_stressing_flag and
breaks when it is down (lines 124, 139, 156). -/
def qstep (cfg : QCfg) : QStep → QSt → StepRes
  | QStep.sort, s =>
    if alarmFires cfg s then StepRes.jumped {s with doJmp := false}
    else StepRes.cont {s with unit := s.unit + 1, dataIdx := s.dataIdx + 1}
  | QStep.verify tag asc, s =>
    if cfg.verifyOn then
      if alarmFires cfg s then StepRes.jumped {s with doJmp := false}
      else
        let bad : Bool :=
          if asc then ascOrderErr (cfg.sortOut (s.dataIdx - 1))
          else descOrderErr (cfg.sortOut (s.dataIdx - 1))
        let fs := if bad then (s.dataIdx - 1, tag) :: s.failures else s.failures
        StepRes.cont {s with unit := s.unit + 1, failures := fs}
    else StepRes.cont s
  | QStep.chk, s =>
    if cfg.flags s.chk then StepRes.cont {s with chk := s.chk + 1}
    else StepRes.broke {s with chk := s.chk + 1}

/-- Run a list of steps in order, stopping at the first jump or break. -/
def runSteps (cfg : QCfg) : List QStep → QSt → StepRes
  | [], s => StepRes.cont s
  | st :: rest, s =>
    match qstep cfg st s with
    | StepRes.cont t => runSteps cfg rest t
    | StepRes.jumped t => StepRes.jumped t
    | StepRes.broke t => StepRes.broke t

/-- The steps of the do-while body of stress_qsort, lines 111-158, in
source order: forward sort, ascending verify, checkpoint; reverse sort,
descending verify, checkpoint; byte re-order sort, reverse sort, descending
verify, checkpoint. -/
def iterSteps : List QStep :=
  [QStep.sort, QStep.verify VTag.sortErr true, QStep.chk,
   QStep.sort, QStep.verify VTag.revSortErr false, QStep.chk,
   QStep.sort, QStep.sort, QStep.verify VTag.revSortErr false, QStep.chk]

/-- Result of one pass through the do-while body: the siglongjmp was taken,
a mid-iteration checkpoint broke out (counter not incremented), or the body
completed and inc_counter ran (line 159). -/
inductive IterOut
  | jumped (s : QSt)
  | broke (s : QSt)
  | done (s : QSt)
deriving DecidableEq

def bumpChk (s : QSt) : QSt := {s with chk := s.chk + 1}

/-- One pass through the do-while body of stress_qsort, lines 111-160. -/
def qsortIter (cfg : QCfg) (s : QSt) : IterOut :=
  match runSteps cfg iterSteps s with
  | StepRes.cont t => IterOut.done {t with counter := t.counter + 1}
  | StepRes.jumped t => IterOut.jumped t
  | StepRes.broke t => IterOut.broke t

/-- How the stress_qsort loop was left: via the SIGALRM siglongjmp back to
the sigsetjmp point (line 96), via a mid-iteration checkpoint break, via
the do-while condition (line 160) turning false, or fuel exhaustion of the
model. -/
inductive QExit
  | jumped
  | midBreak
  | loopEnd
  | fuelOut
deriving DecidableEq

/-- Result of a stress_qsort run: final state, exit mechanism, one Boolean
per attempted iteration recording whether it completed, and the counter
value after each attempted iteration. -/
structure QRun where
  st : QSt
  exitVia : QExit
  iters : List Bool
  ctrace : List Nat
deriving DecidableEq

/-- The do-while loop of stress_qsort, lines 111-160, with explicit fuel. -/
def stress_qsort_loop (cfg : QCfg) : Nat → QSt → QRun
  | 0, s => ⟨s, QExit.fuelOut, [], []⟩
  | fuel + 1, s =>
    match qsortIter cfg s with
    | IterOut.jumped t => ⟨t, QExit.jumped, [false], [t.counter]⟩
    | IterOut.broke t => ⟨t, QExit.midBreak, [false], [t.counter]⟩
    | IterOut.done t =>
      let c := cfg.flags t.chk &&
        (decide (cfg.maxOps = 0) || decide (t.counter < cfg.maxOps))
      if c then
        let r := stress_qsort_loop cfg fuel (bumpChk t)
        ⟨r.st, r.exitVia, true :: r.iters, (bumpChk t).counter :: r.ctrace⟩
      else ⟨bumpChk t, QExit.loopEnd, [true], [(bumpChk t).counter]⟩

/-- A full stress_qsort run from the initial state; on the normal exit path
line 162 clears the do_jmp guard (on the jump path the handler already
cleared it). -/
def stress_qsort (cfg : QCfg) (fuel : Nat) : QRun :=
  let r := stress_qsort_loop cfg fuel qInit
  ⟨{r.st with doJmp := false}, r.exitVia, r.iters, r.ctrace⟩

/-- Running bogo-op counts along a list of iteration outcomes. -/
def runningCounts : Nat → List Bool → List Nat
  | _, [] => []
  | c, b :: bs =>
    (if b then c + 1 else c) :: runningCounts (if b then c + 1 else c) bs

/-- Boolean check that a list is non-decreasing starting from c. -/
def nondecFrom : Nat → List Nat → Bool
  | _, [] => true
  | c, x :: xs => decide (c ≤ x) && nondecFrom x xs

def StepRes.state : StepRes → QSt
  | StepRes.cont s => s
  | StepRes.jumped s => s
  | StepRes.broke s => s

def IterOut.state : IterOut → QSt
  | IterOut.jumped s => s
  | IterOut.broke s => s
  | IterOut.done s => s

def IterOut.isDone : IterOut → Bool
  | IterOut.done _ => true
  | _ => false

theorem qstep_state_counter (cfg : QCfg) (st : QStep) (s : QSt) :
    ((qstep cfg st s).state).counter = s.counter := by
  cases st with
  | sort =>
    by_cases h : alarmFires cfg s = true <;> simp [qstep, h, StepRes.state]
  | verify tag asc =>
    by_cases hv : cfg.verifyOn = true <;>
      by_cases h : alarmFires cfg s = true <;>
        simp [qstep, hv, h, StepRes.state]
  | chk =>
    by_cases h : cfg.flags s.chk = true <;> simp [qstep, h, StepRes.state]

theorem runSteps_state_counter (cfg : QCfg) :
    ∀ (steps : List QStep) (s : QSt),
      ((runSteps cfg steps s).state).counter = s.counter := by
  intro steps
  induction steps with
  | nil => intro s; rfl
  | cons st rest ih =>
    intro s
    have hq := qstep_state_counter cfg st s
    simp only [runSteps]
    cases hqe : qstep cfg st s with
    | cont t =>
      rw [hqe] at hq
      have ht : t.counter = s.counter := hq
      rw [← ht]
      exact ih t
    | jumped t =>
      rw [hqe] at hq
      exact hq
    | broke t =>
      rw [hqe] at hq
      exact hq

theorem qsortIter_counter (cfg : QCfg) (s : QSt) :
    ((qsortIter cfg s).state).counter =
      s.counter + (if (qsortIter cfg s).isDone then 1 else 0) := by
  unfold qsortIter
  have h := runSteps_state_counter cfg iterSteps s
  cases hre : runSteps cfg iterSteps s <;> rw [hre] at h <;>
    simp_all [IterOut.state, IterOut.isDone, StepRes.state]

theorem nondecFrom_runningCounts :
    ∀ (its : List Bool) (c : Nat), nondecFrom c (runningCounts c its) = true := by
  intro its
  induction its with
  | nil => intro c; rfl
  | cons b bs ih => intro c; cases b <;> simp [runningCounts, nondecFrom, ih]

theorem stress_qsort_loop_counter (cfg : QCfg) :
    ∀ (fuel : Nat) (s : QSt),
      ((stress_qsort_loop cfg fuel s).st).counter =
          s.counter + ((stress_qsort_loop cfg fuel s).iters.count true)
      ∧ (stress_qsort_loop cfg fuel s).ctrace =
          runningCounts s.counter (stress_qsort_loop cfg fuel s).iters := by
  intro fuel
  induction fuel with
  | zero => intro s; simp [stress_qsort_loop, runningCounts]
  | succ n ih =>
    intro s
    have hit := qsortIter_counter cfg s
    simp only [stress_qsort_loop]
    cases hq : qsortIter cfg s with
    | jumped t =>
      rw [hq] at hit
      simp only [IterOut.state, IterOut.isDone, if_false] at hit
      simp [hit, runningCounts]
    | broke t =>
      rw [hq] at hit
      simp only [IterOut.state, IterOut.isDone, if_false] at hit
      simp [hit, runningCounts]
    | done t =>
      rw [hq] at hit
      simp only [IterOut.state, IterOut.isDone, if_true] at hit
      by_cases hc : (cfg.flags t.chk &&
          (decide (cfg.maxOps = 0) || decide (t.counter < cfg.maxOps))) = true
      · have ihb := ih (bumpChk t)
        have hbc : (bumpChk t).counter = t.counter := rfl
        simp only [hc, if_true]
        constructor
        · simp only [List.count_cons]
          have := ihb.1
          rw [this, hbc, hit]
          simp
          omega
        · have h2 := ihb.2
          simp only [runningCounts]
          rw [h2, hbc, hit]
          simp
      · simp only [hc, if_false]
        constructor
        · have hbc : (bumpChk t).counter = t.counter := rfl
          simp [hbc, hit, List.count_cons]
        · have hbc : (bumpChk t).counter = t.counter := rfl
          simp [runningCounts, hbc, hit]

/-- Claim C7: over any stress_qsort run the bogo-op counter is monotonically
non-decreasing, at every point (after each attempted iteration) it equals
the number of iterations fully completed so far, and an iteration abandoned
partway (checkpoint break or siglongjmp before the last unit of work) does
not increment it: the final counter equals exactly the number of completed
iterations. -/
theorem qsort_counter_counts_completed (cfg : QCfg) (fuel : Nat) :
    (stress_qsort cfg fuel).st.counter =
        (stress_qsort cfg fuel).iters.count true
    ∧ (stress_qsort cfg fuel).ctrace =
        runningCounts 0 (stress_qsort cfg fuel).iters
    ∧ nondecFrom 0 (stress_qsort cfg fuel).ctrace = true := by
  have h := stress_qsort_loop_counter cfg fuel qInit
  have hcount : qInit.counter = 0 := rfl
  rw [hcount] at h
  refine ⟨?_, ?_, ?_⟩
  · have := h.1
    simpa [stress_qsort] using this
  · have := h.2
    simpa [stress_qsort] using this
  · have := h.2
    have h3 : (stress_qsort cfg fuel).ctrace =
        runningCounts 0 (stress_qsort cfg fuel).iters := by
      simpa [stress_qsort] using this
    rw [h3]
    exact nondecFrom_runningCounts _ 0

/-- Control components of the qsort worker state: everything except the
recorded verification failures. -/
structure Ctl where
  unit : Nat
  chk : Nat
  dataIdx : Nat
  counter : Nat
  doJmp : Bool
deriving DecidableEq

def QSt.ctl (s : QSt) : Ctl := ⟨s.unit, s.chk, s.dataIdx, s.counter, s.doJmp⟩

/-- Control components of the environment: everything except the buffer
contents left by the qsort calls. -/
structure CtlCfg where
  flags : Nat → Bool
  alarmUnit : Option Nat
  verifyOn : Bool
  maxOps : Nat

def QCfg.ctlCfg (cfg : QCfg) : CtlCfg :=
  ⟨cfg.flags, cfg.alarmUnit, cfg.verifyOn, cfg.maxOps⟩

def alarmFiresC (cc : CtlCfg) (c : Ctl) : Bool :=
  decide (cc.alarmUnit = some c.unit) && c.doJmp

inductive CStepRes
  | cont (c : Ctl)
  | jumped (c : Ctl)
  | broke (c : Ctl)
deriving DecidableEq

/-- Control-only mirror of qstep: same branching, failures not tracked. -/
def cstep (cc : CtlCfg) : QStep → Ctl → CStepRes
  | QStep.sort, c =>
    if alarmFiresC cc c then CStepRes.jumped {c with doJmp := false}
    else CStepRes.cont {c with unit := c.unit + 1, dataIdx := c.dataIdx + 1}
  | QStep.verify _ _, c =>
    if cc.verifyOn then
      if alarmFiresC cc c then CStepRes.jumped {c with doJmp := false}
      else CStepRes.cont {c with unit := c.unit + 1}
    else CStepRes.cont c
  | QStep.chk, c =>
    if cc.flags c.chk then CStepRes.cont {c with chk := c.chk + 1}
    else CStepRes.broke {c with chk := c.chk + 1}

def runStepsC (cc : CtlCfg) : List QStep → Ctl → CStepRes
  | [], c => CStepRes.cont c
  | st :: rest, c =>
    match cstep cc st c with
    | CStepRes.cont t => runStepsC cc rest t
    | CStepRes.jumped t => CStepRes.jumped t
    | CStepRes.broke t => CStepRes.broke t

inductive CIterOut
  | jumped (c : Ctl)
  | broke (c : Ctl)
  | done (c : Ctl)
deriving DecidableEq

def bumpChkC (c : Ctl) : Ctl := {c with chk := c.chk + 1}

def qsortIterC (cc : CtlCfg) (c : Ctl) : CIterOut :=
  match runStepsC cc iterSteps c with
  | CStepRes.cont t => CIterOut.done {t with counter := t.counter + 1}
  | CStepRes.jumped t => CIterOut.jumped t
  | CStepRes.broke t => CIterOut.broke t

structure CRun where
  st : Ctl
  exitVia : QExit
  iters : List Bool
  ctrace : List Nat
deriving DecidableEq

/-- Control-only mirror of the stress_qsort do-while loop. -/
def qsort_loop_ctl (cc : CtlCfg) : Nat → Ctl → CRun
  | 0, c => ⟨c, QExit.fuelOut, [], []⟩
  | fuel + 1, c =>
    match qsortIterC cc c with
    | CIterOut.jumped t => ⟨t, QExit.jumped, [false], [t.counter]⟩
    | CIterOut.broke t => ⟨t, QExit.midBreak, [false], [t.counter]⟩
    | CIterOut.done t =>
      let k := cc.flags t.chk &&
        (decide (cc.maxOps = 0) || decide (t.counter < cc.maxOps))
      if k then
        let r := qsort_loop_ctl cc fuel (bumpChkC t)
        ⟨r.st, r.exitVia, true :: r.iters, (bumpChkC t).counter :: r.ctrace⟩
      else ⟨bumpChkC t, QExit.loopEnd, [true], [(bumpChkC t).counter]⟩

def projStep : StepRes → CStepRes
  | StepRes.cont s => CStepRes.cont s.ctl
  | StepRes.jumped s => CStepRes.jumped s.ctl
  | StepRes.broke s => CStepRes.broke s.ctl

def projIter : IterOut → CIterOut
  | IterOut.jumped s => CIterOut.jumped s.ctl
  | IterOut.broke s => CIterOut.broke s.ctl
  | IterOut.done s => CIterOut.done s.ctl

def projRun (r : QRun) : CRun := ⟨r.st.ctl, r.exitVia, r.iters, r.ctrace⟩

theorem qstep_proj (cfg : QCfg) (st : QStep) (s : QSt) :
    projStep (qstep cfg st s) = cstep cfg.ctlCfg st s.ctl := by
  cases st with
  | sort =>
    by_cases h : (decide (cfg.alarmUnit = some s.unit) && s.doJmp) = true <;>
      simp [qstep, cstep, alarmFires, alarmFiresC, h, projStep, QSt.ctl,
        QCfg.ctlCfg]
  | verify tag asc =>
    by_cases hv : cfg.verifyOn = true <;>
      by_cases h : (decide (cfg.alarmUnit = some s.unit) && s.doJmp) = true <;>
        simp [qstep, cstep, alarmFires, alarmFiresC, hv, h, projStep, QSt.ctl,
          QCfg.ctlCfg]
  | chk =>
    by_cases h : cfg.flags s.chk = true <;>
      simp [qstep, cstep, h, projStep, QSt.ctl, QCfg.ctlCfg]

theorem runSteps_proj (cfg : QCfg) :
    ∀ (steps : List QStep) (s : QSt),
      projStep (runSteps cfg steps s) = runStepsC cfg.ctlCfg steps s.ctl := by
  intro steps
  induction steps with
  | nil => intro s; rfl
  | cons st rest ih =>
    intro s
    have hp := qstep_proj cfg st s
    simp only [runSteps, runStepsC]
    cases hqe : qstep cfg st s with
    | cont t =>
      rw [hqe] at hp
      rw [← hp]
      simp only [projStep]
      exact ih t
    | jumped t =>
      rw [hqe] at hp
      rw [← hp]
      simp [projStep]
    | broke t =>
      rw [hqe] at hp
      rw [← hp]
      simp [projStep]

theorem qsortIter_proj (cfg : QCfg) (s : QSt) :
    projIter (qsortIter cfg s) = qsortIterC cfg.ctlCfg s.ctl := by
  have hp := runSteps_proj cfg iterSteps s
  unfold qsortIter qsortIterC
  cases hre : runSteps cfg iterSteps s <;> rw [hre] at hp <;> rw [← hp] <;>
    simp [projStep, projIter, QSt.ctl]

theorem qsort_loop_proj (cfg : QCfg) :
    ∀ (fuel : Nat) (s : QSt),
      projRun (stress_qsort_loop cfg fuel s) =
        qsort_loop_ctl cfg.ctlCfg fuel s.ctl := by
  intro fuel
  induction fuel with
  | zero => intro s; rfl
  | succ n ih =>
    intro s
    have hp := qsortIter_proj cfg s
    simp only [stress_qsort_loop, qsort_loop_ctl]
    cases hq : qsortIter cfg s with
    | jumped t =>
      rw [hq] at hp
      rw [← hp]
      simp [projIter, projRun, QSt.ctl]
    | broke t =>
      rw [hq] at hp
      rw [← hp]
      simp [projIter, projRun, QSt.ctl]
    | done t =>
      rw [hq] at hp
      rw [← hp]
      simp only [projIter]
      have hcond : (cfg.ctlCfg.flags (t.ctl).chk &&
          (decide (cfg.ctlCfg.maxOps = 0) ||
            decide ((t.ctl).counter < cfg.ctlCfg.maxOps))) =
          (cfg.flags t.chk &&
            (decide (cfg.maxOps = 0) || decide (t.counter < cfg.maxOps))) := rfl
      rw [hcond]
      by_cases hc : (cfg.flags t.chk &&
          (decide (cfg.maxOps = 0) || decide (t.counter < cfg.maxOps))) = true
      · simp only [hc, if_true]
        have hb : (bumpChk t).ctl = bumpChkC t.ctl := rfl
        have := ih (bumpChk t)
        rw [hb] at this
        simp only [projRun] at this ⊢
        rw [← this]
        rfl
      · simp only [hc, if_false]
        rfl

theorem qstep_failures_suffix (cfg : QCfg) (st : QStep) (s : QSt) :
    s.failures <:+ ((qstep cfg st s).state).failures := by
  cases st with
  | sort =>
    by_cases h : alarmFires cfg s = true <;>
      simp [qstep, h, StepRes.state]
  | verify tag asc =>
    by_cases hv : cfg.verifyOn = true <;>
      by_cases h : alarmFires cfg s = true <;>
        simp only [qstep, hv, h, if_true, if_false, Bool.false_eq_true,
          StepRes.state] <;>
      repeat' first
        | exact List.suffix_refl _
        | exact List.suffix_cons _ _
        | split
  | chk =>
    by_cases h : cfg.flags s.chk = true <;>
      simp [qstep, h, StepRes.state]

theorem runSteps_failures_suffix (cfg : QCfg) :
    ∀ (steps : List QStep) (s : QSt),
      s.failures <:+ ((runSteps cfg steps s).state).failures := by
  intro steps
  induction steps with
  | nil => intro s; exact List.suffix_refl _
  | cons st rest ih =>
    intro s
    have hq := qstep_failures_suffix cfg st s
    simp only [runSteps]
    cases hqe : qstep cfg st s with
    | cont t =>
      rw [hqe] at hq
      exact List.IsSuffix.trans hq (ih t)
    | jumped t =>
      rw [hqe] at hq
      exact hq
    | broke t =>
      rw [hqe] at hq
      exact hq

theorem qsortIter_failures_suffix (cfg : QCfg) (s : QSt) :
    s.failures <:+ ((qsortIter cfg s).state).failures := by
  have hq := runSteps_failures_suffix cfg iterSteps s
  unfold qsortIter
  cases hre : runSteps cfg iterSteps s <;> rw [hre] at hq <;>
    simpa [StepRes.state, IterOut.state] using hq

theorem qsort_loop_failures_suffix (cfg : QCfg) :
    ∀ (fuel : Nat) (s : QSt),
      s.failures <:+ ((stress_qsort_loop cfg fuel s).st).failures := by
  intro fuel
  induction fuel with
  | zero => intro s; exact List.suffix_refl _
  | succ n ih =>
    intro s
    have hit := qsortIter_failures_suffix cfg s
    simp only [stress_qsort_loop]
    cases hq : qsortIter cfg s with
    | jumped t =>
      rw [hq] at hit
      exact hit
    | broke t =>
      rw [hq] at hit
      exact hit
    | done t =>
      rw [hq] at hit
      simp only [IterOut.state] at hit
      by_cases hc : (cfg.flags t.chk &&
          (decide (cfg.maxOps = 0) || decide (t.counter < cfg.maxOps))) = true
      · simp only [hc, if_true]
        have hb : (bumpChk t).failures = t.failures := rfl
        have := ih (bumpChk t)
        rw [hb] at this
        exact List.IsSuffix.trans hit this
      · simp only [hc, if_false]
        exact hit

theorem qsortIter_records (cfg : QCfg) (s : QSt)
    (halarm : cfg.alarmUnit = none) (hver : cfg.verifyOn = true)
    (herr : ascOrderErr (cfg.sortOut s.dataIdx) = true) :
    (s.dataIdx, VTag.sortErr) ∈ ((qsortIter cfg s).state).failures := by
  have hnoal : ∀ u : QSt, alarmFires cfg u = false := by
    intro u
    simp [alarmFires, halarm]
  have h1 : qstep cfg QStep.sort s = StepRes.cont ⟨s.unit + 1, s.chk, s.dataIdx + 1, s.counter, s.failures, s.doJmp⟩ := by
    simp only [qstep, hnoal, Bool.false_eq_true, if_false]
  have h2 : qstep cfg (QStep.verify VTag.sortErr true) ⟨s.unit + 1, s.chk, s.dataIdx + 1, s.counter, s.failures, s.doJmp⟩ = StepRes.cont ⟨s.unit + 1 + 1, s.chk, s.dataIdx + 1, s.counter, (s.dataIdx, VTag.sortErr) :: s.failures, s.doJmp⟩ := by
    simp only [qstep, hver, if_true, hnoal, Bool.false_eq_true, if_false]
    have hidx : s.dataIdx + 1 - 1 = s.dataIdx := by omega
    simp [hidx, herr]
  have hrun : runSteps cfg iterSteps s = runSteps cfg [QStep.chk, QStep.sort, QStep.verify VTag.revSortErr false, QStep.chk, QStep.sort, QStep.sort, QStep.verify VTag.revSortErr false, QStep.chk] ⟨s.unit + 1 + 1, s.chk, s.dataIdx + 1, s.counter, (s.dataIdx, VTag.sortErr) :: s.failures, s.doJmp⟩ := by
    simp only [iterSteps, runSteps, h1, h2]
  have hsuf := runSteps_failures_suffix cfg [QStep.chk, QStep.sort, QStep.verify VTag.revSortErr false, QStep.chk, QStep.sort, QStep.sort, QStep.verify VTag.revSortErr false, QStep.chk] ⟨s.unit + 1 + 1, s.chk, s.dataIdx + 1, s.counter, (s.dataIdx, VTag.sortErr) :: s.failures, s.doJmp⟩
  have hmem : (s.dataIdx, VTag.sortErr) ∈ ((⟨s.unit + 1 + 1, s.chk, s.dataIdx + 1, s.counter, (s.dataIdx, VTag.sortErr) :: s.failures, s.doJmp⟩ : QSt)).failures := by
    simp
  have hmem2 := hsuf.subset hmem
  unfold qsortIter
  rw [hrun]
  cases hre : runSteps cfg [QStep.chk, QStep.sort, QStep.verify VTag.revSortErr false, QStep.chk, QStep.sort, QStep.sort, QStep.verify VTag.revSortErr false, QStep.chk] ⟨s.unit + 1 + 1, s.chk, s.dataIdx + 1, s.counter, (s.dataIdx, VTag.sortErr) :: s.failures, s.doJmp⟩ <;>
    rw [hre] at hmem2 <;>
    simpa [StepRes.state, IterOut.state] using hmem2

/-- Claim C8: when verification is enabled and the verify pass after the
forward sort finds an ordering error, a failure identifying that check is
recorded in the run's failure log and survives to the end of the run, and
the loop continues: the whole control flow of the run (exit mechanism,
iteration outcomes, counter trace, and every control component of the
state) is a function of the control environment alone, independent of the
buffer contents and hence of every verification outcome. -/
theorem qsort_verify_failure_recorded_continues (cfg : QCfg) (s : QSt)
    (fuel n : Nat) :
    (cfg.alarmUnit = none → cfg.verifyOn = true →
      ascOrderErr (cfg.sortOut s.dataIdx) = true →
      (s.dataIdx, VTag.sortErr) ∈
        ((stress_qsort_loop cfg (n + 1) s).st).failures)
    ∧ projRun (stress_qsort_loop cfg fuel s) =
        qsort_loop_ctl cfg.ctlCfg fuel s.ctl := by
  constructor
  · intro halarm hver herr
    have hrec := qsortIter_records cfg s halarm hver herr
    simp only [stress_qsort_loop]
    cases hq : qsortIter cfg s with
    | jumped t =>
      rw [hq] at hrec
      simpa [IterOut.state] using hrec
    | broke t =>
      rw [hq] at hrec
      simpa [IterOut.state] using hrec
    | done t =>
      rw [hq] at hrec
      simp only [IterOut.state] at hrec
      by_cases hc : (cfg.flags t.chk &&
          (decide (cfg.maxOps = 0) || decide (t.counter < cfg.maxOps))) = true
      · simp only [hc, if_true]
        have hsuf := qsort_loop_failures_suffix cfg n (bumpChk t)
        have hb : (bumpChk t).failures = t.failures := rfl
        rw [hb] at hsuf
        exact hsuf.subset hrec
      · simp only [hc, if_false]
        exact hrec
  · exact qsort_loop_proj cfg fuel s

/-- Concrete environment whose qsort output is mis-ordered, with
verification enabled and no alarm. -/
def qcfgW : QCfg := ⟨fun _ => true, fun _ => [1, 0], none, true, 0⟩

/-- Witness for claim C8: with a mis-ordered buffer the forward-sort check
fails, the failure is recorded in the final state, and the control flow
equals that of the data-independent control run. -/
theorem qsort_verify_failure_recorded_continues_witness :
    (0, VTag.sortErr) ∈ ((stress_qsort_loop qcfgW 1 qInit).st).failures
    ∧ projRun (stress_qsort_loop qcfgW 1 qInit) =
        qsort_loop_ctl qcfgW.ctlCfg 1 qInit.ctl := by
  have h := qsort_verify_failure_recorded_continues qcfgW qInit 1 0
  exact ⟨h.1 rfl rfl (by decide), h.2⟩

def StepRes.isJumped : StepRes → Bool
  | StepRes.jumped _ => true
  | _ => false

theorem qstep_no_alarm (cfg : QCfg) (st : QStep) (s : QSt)
    (halarm : cfg.alarmUnit = none) :
    (qstep cfg st s).isJumped = false := by
  have hnoal : alarmFires cfg s = false := by simp [alarmFires, halarm]
  cases st with
  | sort => simp [qstep, hnoal, StepRes.isJumped]
  | verify tag asc =>
    by_cases hv : cfg.verifyOn = true <;>
      simp [qstep, hv, hnoal, StepRes.isJumped]
  | chk =>
    by_cases h : cfg.flags s.chk = true <;>
      simp [qstep, h, StepRes.isJumped]

theorem runSteps_no_alarm (cfg : QCfg) (halarm : cfg.alarmUnit = none) :
    ∀ (steps : List QStep) (s : QSt),
      (runSteps cfg steps s).isJumped = false := by
  intro steps
  induction steps with
  | nil => intro s; rfl
  | cons st rest ih =>
    intro s
    have hq := qstep_no_alarm cfg st s halarm
    simp only [runSteps]
    cases hqe : qstep cfg st s with
    | cont t => exact ih t
    | jumped t =>
      rw [hqe] at hq
      exact absurd hq (by simp [StepRes.isJumped])
    | broke t => rfl

def IterOut.isJumped : IterOut → Bool
  | IterOut.jumped _ => true
  | _ => false

theorem qsortIter_no_alarm (cfg : QCfg) (s : QSt)
    (halarm : cfg.alarmUnit = none) :
    (qsortIter cfg s).isJumped = false := by
  have hq := runSteps_no_alarm cfg halarm iterSteps s
  unfold qsortIter
  cases hre : runSteps cfg iterSteps s <;> rw [hre] at hq <;>
    simp_all [StepRes.isJumped, IterOut.isJumped]

theorem qsort_loop_no_alarm (cfg : QCfg) (halarm : cfg.alarmUnit = none) :
    ∀ (fuel : Nat) (s : QSt),
      (stress_qsort_loop cfg fuel s).exitVia ≠ QExit.jumped := by
  intro fuel
  induction fuel with
  | zero => intro s; simp [stress_qsort_loop]
  | succ n ih =>
    intro s
    have hit := qsortIter_no_alarm cfg s halarm
    simp only [stress_qsort_loop]
    cases hq : qsortIter cfg s with
    | jumped t =>
      rw [hq] at hit
      exact absurd hit (by simp [IterOut.isJumped])
    | broke t => simp
    | done t =>
      by_cases hc : (cfg.flags t.chk &&
          (decide (cfg.maxOps = 0) || decide (t.counter < cfg.maxOps))) = true
      · simp only [hc, if_true]
        exact ih (bumpChk t)
      · simp [hc]

/-- Claim C9 (counterexample): it is not the case that the qsort worker
abandons in-progress operations only via checkpoint polling: a run in which
SIGALRM is delivered during the first qsort call exits the loop via the
signal handler's siglongjmp back into the worker's control flow. -/
theorem qsort_nonlocal_jump_used_cex :
    ¬ ∀ (cfg : QCfg) (fuel : Nat),
        (stress_qsort cfg fuel).exitVia ≠ QExit.jumped :=
  fun h => h ⟨fun _ => true, fun _ => [0], some 0, false, 0⟩ 5 (by decide)

/-- Claim C9 (amended): the qsort worker abandons an in-progress operation
either via an explicit checkpoint poll of the cancellation flag or via the
SIGALRM handler's non-local jump (sigsetjmp and siglongjmp guarded by
do_jmp): a run never exits via the jump unless SIGALRM was delivered during
some unit of work, and every run that exits via the jump had such a
delivery; the non-local jump IS one of the interruption mechanisms used. -/
theorem qsort_abandon_mechanisms (cfg : QCfg) (fuel : Nat) (s : QSt) :
    (cfg.alarmUnit = none →
      (stress_qsort_loop cfg fuel s).exitVia ≠ QExit.jumped)
    ∧ ((stress_qsort_loop cfg fuel s).exitVia = QExit.jumped →
        ∃ u, cfg.alarmUnit = some u) := by
  constructor
  · intro halarm
    exact qsort_loop_no_alarm cfg halarm fuel s
  · intro hj
    cases ha : cfg.alarmUnit with
    | none => exact absurd hj (qsort_loop_no_alarm cfg ha fuel s)
    | some u => exact ⟨u, rfl⟩

/-- Witness for claim C9 (amended): a concrete run with no SIGALRM delivery
does not exit via the jump. -/
theorem qsort_abandon_mechanisms_witness :
    (stress_qsort_loop ⟨fun _ => true, fun _ => [0], none, false, 1⟩ 3
      qInit).exitVia ≠ QExit.jumped :=
  (qsort_abandon_mechanisms ⟨fun _ => true, fun _ => [0], none, false, 1⟩
    3 qInit).1 rfl

/-- One SIGALRM-relevant event in a stress_qsort run: a delivery of SIGALRM
(running stress_qsort_handler, stress-qsort.c lines 41-49) or the clearing
of the do_jmp guard on the normal exit path (line 162, before the handler
is restored at line 163). -/
inductive JmpEvent
  | alarm
  | clearGuard
deriving DecidableEq

/-- Effect of one event on the do_jmp guard, returning the new guard value
and whether the siglongjmp was taken: the handler tests do_jmp, clears it,
and only then jumps (lines 45-47); with the guard down it returns without
jumping. -/
def jmpStep : Bool → JmpEvent → Bool × Bool
  | d, JmpEvent.alarm => if d then (false, true) else (d, false)
  | _, JmpEvent.clearGuard => (false, false)

/-- Final guard value and total number of jumps taken over an event
sequence. -/
def jmpRun : Bool → List JmpEvent → Bool × Nat
  | d, [] => (d, 0)
  | d, e :: es =>
    let p := jmpStep d e
    let r := jmpRun p.1 es
    (r.1, (if p.2 then 1 else 0) + r.2)

theorem jmpRun_false (evs : List JmpEvent) :
    (jmpRun false evs).1 = false ∧ (jmpRun false evs).2 = 0 := by
  induction evs with
  | nil => exact ⟨rfl, rfl⟩
  | cons e es ih =>
    cases e <;> simpa [jmpRun, jmpStep] using ih

/-- Claim C10: starting from the initial do_jmp value true (line 27), any
sequence of SIGALRM deliveries and normal-exit guard clears takes the
siglongjmp at most once; once the guard is down (after the first jump or
after the normal-exit clear) every further delivery leaves it down and
takes no jump, so the worker's control flow is unchanged; and every
modelled stress_qsort run ends with the guard cleared. -/
theorem qsort_jump_at_most_once :
    (∀ evs : List JmpEvent, (jmpRun true evs).2 ≤ 1)
    ∧ (∀ evs : List JmpEvent,
        (jmpRun false evs).2 = 0 ∧ (jmpRun false evs).1 = false)
    ∧ (∀ (cfg : QCfg) (fuel : Nat),
        (stress_qsort cfg fuel).st.doJmp = false) := by
  refine ⟨?_, ?_, ?_⟩
  · intro evs
    cases evs with
    | nil => simp [jmpRun]
    | cons e es =>
      cases e with
      | alarm => simp [jmpRun, jmpStep, (jmpRun_false es).2]
      | clearGuard => simp [jmpRun, jmpStep, (jmpRun_false es).2]
  · intro evs
    exact ⟨(jmpRun_false evs).2, (jmpRun_false evs).1⟩
  · intro cfg fuel
    rfl
